import Mathlib

/-!
Verification of the shortest-path engine in `dijkstra.py`.

The repository contains two algorithms over a shared edge-list input:

* `dijkstra(edges, f, t)` — a lazy-priority-queue single-source single-target
  search.  The frontier holds `(cost, vertex, path)` tuples ordered
  lexicographically (Python tuple order on a binary heap); paths are
  backward-linked nested tuples `(v, rest)`; `seen` is the settled set and
  `mins` the best-known-cost dictionary.
* `Graph.BellmanFord(src)` — `V - 1` relaxation passes over the edge list
  followed by one verification pass that reports a negative cycle.

This file gives a shallow embedding of both and proves the specification
claims about them.  Machine integers are embedded as `ℤ` (Python integers are
unbounded), the `float("Inf")` sentinel as `none : Option ℤ`, and vertex
indices as `ℕ`.
-/

namespace SP

/-- An edge `(u, v, w)`: from vertex `u` to vertex `v` with weight `w`,
exactly the triples stored in `Graph.graph` and consumed by `dijkstra`. -/
abbrev Edge := ℕ × ℕ × ℤ

/-- Python's backward-linked path tuples: `()` is `nil` and `(v, rest)` is
`cons v rest`.  `dijkstra` builds these via `path = (v1, path)`. -/
inductive PyPath where
  | nil : PyPath
  | cons (v : ℕ) (p : PyPath) : PyPath
deriving DecidableEq

/-- Python's lexicographic order on nested path tuples: a shorter tuple that
is a prefix compares smaller, otherwise the first differing component
decides. -/
def pathLt : PyPath → PyPath → Bool
  | PyPath.nil, PyPath.nil => false
  | PyPath.nil, PyPath.cons _ _ => true
  | PyPath.cons _ _, PyPath.nil => false
  | PyPath.cons v p, PyPath.cons v' p' =>
      decide (v < v') || (decide (v = v') && pathLt p p')

/-- A frontier entry `(cost, vertex, path)` as pushed by `heappush`. -/
abbrev Entry := ℤ × ℕ × PyPath

/-- Python tuple comparison on frontier entries: cost first, then vertex,
then path. -/
def entryLt (a b : Entry) : Bool :=
  decide (a.1 < b.1) ||
    (decide (a.1 = b.1) &&
      (decide (a.2.1 < b.2.1) || (decide (a.2.1 = b.2.1) && pathLt a.2.2 b.2.2)))

/-- Leftmost minimal entry of `m :: l` under `entryLt`. -/
def minEntry : Entry → List Entry → Entry
  | m, [] => m
  | m, e :: es => minEntry (if entryLt e m then e else m) es

/-- Model of `heappop`: remove and return the smallest entry of the frontier.  The
heap is modelled as the multiset of its entries; `heappop` is observably
exactly extraction of a minimal element. -/
def popMin : List Entry → Option (Entry × List Entry)
  | [] => none
  | e :: es =>
      let m := minEntry e es
      some (m, (e :: es).erase m)

/-- The adjacency index built by `for l, r, c in edges: g[l].append((c, r))`:
the `(weight, destination)` pairs of the edges leaving `v`, in input order.
`g.get(v1, ())` returns `[]` for absent keys, as the total function does. -/
def adjOf (edges : List Edge) (v : ℕ) : List (ℤ × ℕ) :=
  (edges.filter (fun e => decide (e.1 = v))).map (fun e => (e.2.2, e.2.1))

/-- Pointwise update of a dictionary/table, `d[a] = x`. -/
def updF (f : ℕ → Option ℤ) (a : ℕ) (x : Option ℤ) : ℕ → Option ℤ :=
  fun i => if i = a then x else f i

/-- One step of the neighbor loop of `dijkstra`: skip settled neighbors,
otherwise relax-on-discovery (`prev is None or next < prev`) recording the
new best cost and pushing the extended entry.  `seen` here is the settled
set already including the vertex just settled, matching `seen.add(v1)`
preceding the loop. -/
def pushStep (seen : List ℕ) (cost : ℤ) (path : PyPath) :
    List Entry × (ℕ → Option ℤ) → ℤ × ℕ → List Entry × (ℕ → Option ℤ) :=
  fun st cv =>
    if cv.2 ∈ seen then st
    else
      match st.2 cv.2 with
      | none => ((cost + cv.1, cv.2, path) :: st.1, updF st.2 cv.2 (some (cost + cv.1)))
      | some prev =>
          if cost + cv.1 < prev then
            ((cost + cv.1, cv.2, path) :: st.1, updF st.2 cv.2 (some (cost + cv.1)))
          else st

/-- Result of `dijkstra`: the `(cost, path)` return, the `float("inf")`
sentinel for an exhausted frontier, or exhaustion of the step budget of the
embedding (shown unreachable for the budget `dijkstra` uses). -/
inductive DRes where
  | found (cost : ℤ) (path : PyPath) : DRes
  | unreachable : DRes
  | outOfFuel : DRes
deriving DecidableEq

/-- The `while q:` loop of `dijkstra`, fuelled.  Pop the minimum; discard a
stale entry; otherwise settle the vertex, extend the path, return at the
target, and push improved neighbor entries. -/
def dloop (adj : ℕ → List (ℤ × ℕ)) (t : ℕ) :
    ℕ → List Entry → List ℕ → (ℕ → Option ℤ) → DRes
  | 0, q, _, _ =>
      match popMin q with
      | none => DRes.unreachable
      | some _ => DRes.outOfFuel
  | fuel + 1, q, seen, mins =>
      match popMin q with
      | none => DRes.unreachable
      | some (e, q') =>
          if e.2.1 ∈ seen then dloop adj t fuel q' seen mins
          else
            if e.2.1 = t then DRes.found e.1 (PyPath.cons e.2.1 e.2.2)
            else
              let st := (adj e.2.1).foldl
                (pushStep (e.2.1 :: seen) e.1 (PyPath.cons e.2.1 e.2.2)) (q', mins)
              dloop adj t fuel st.1 (e.2.1 :: seen) st.2

/-- The function `dijkstra(edges, f, t)`.  Initial state: frontier `[(0, f, ())]`, empty
settled set, and `mins` mapping `f` to `0`.  The fuel `edges.length + 1`
bounds the number of pops: at most one initial entry plus one push per edge
ever enters the frontier (proved below). -/
def dijkstra (edges : List Edge) (f t : ℕ) : DRes :=
  dloop (adjOf edges) t (edges.length + 1) [(0, f, PyPath.nil)] []
    (fun v => if v = f then some 0 else none)

/-!
### The RelaxationEngine (`Graph.BellmanFord`)

The distance table is embedded as a total function `ℕ → Option ℤ`, with
`none` for the `float("Inf")` sentinel.  This is faithful to the Python list
for all in-range indices; the theorems below carry the well-formedness
hypotheses (`src < V` and all edge endpoints `< V`) under which no other
index is touched.  A second embedding, `bellmanFordE`, models the
out-of-range behaviour (Python raising `IndexError`) explicitly.
-/

/-- A graph as constructed by `Graph(vertices)` plus `addEdge` calls. -/
structure BFGraph where
  V : ℕ
  edges : List Edge

/-- Initialization `dist = [Inf] * V; dist[src] = 0`, as a total table. -/
def initDist (src : ℕ) : ℕ → Option ℤ :=
  fun i => if i = src then some 0 else none

/-- One edge examination:
`if dist[u] != Inf and dist[u] + w < dist[v]: dist[v] = dist[u] + w`.
A finite `dist[u] + w` always compares below the `Inf` sentinel. -/
def relaxEdge (dist : ℕ → Option ℤ) (e : Edge) : ℕ → Option ℤ :=
  match dist e.1 with
  | none => dist
  | some du =>
      match dist e.2.1 with
      | none => updF dist e.2.1 (some (du + e.2.2))
      | some dv =>
          if du + e.2.2 < dv then updF dist e.2.1 (some (du + e.2.2)) else dist

/-- One full pass `for u, v, w in self.graph: ...` over the edge list. -/
def relaxPass (edges : List Edge) (dist : ℕ → Option ℤ) : ℕ → Option ℤ :=
  edges.foldl relaxEdge dist

/-- The table after the `for i in range(self.V - 1)` loop of passes. -/
def bfTable (g : BFGraph) (src : ℕ) : ℕ → Option ℤ :=
  (List.range (g.V - 1)).foldl (fun d _ => relaxPass g.edges d) (initDist src)

/-- The verification pass finds an edge that still improves:
`dist[u] != Inf and dist[u] + w < dist[v]` for some edge. -/
def improvable (edges : List Edge) (dist : ℕ → Option ℤ) : Bool :=
  edges.any fun e =>
    match dist e.1, dist e.2.1 with
    | some _, none => true
    | some du, some dv => decide (du + e.2.2 < dv)
    | none, _ => false

/-- The method `BellmanFord(src)`: run the `V - 1` passes, then the verification pass.
The Python method communicates its outcome by printing the cycle message and
early-returning (the table stays local; its printing is commented out); the
embedding surfaces that outcome as `none` for the cycle report and `some`
of the computed table for normal completion. -/
def bellmanFord (g : BFGraph) (src : ℕ) : Option (ℕ → Option ℤ) :=
  let d := bfTable g src
  if improvable g.edges d then none else some d

/-!
### Walks and chains

`WalkTo edges s v c` says some walk from `s` to `v` along edges of the list
has total weight `c`; the minimal such `c` is the distance the spec talks
about.  `IsChain` is the same notion with the edge sequence explicit, which
the negative-cycle arguments need for surgery on repeated vertices.
-/

/-- Existence of a walk of total weight `c` (snoc-oriented). -/
inductive WalkTo (edges : List Edge) (s : ℕ) : ℕ → ℤ → Prop where
  | refl : WalkTo edges s s 0
  | snoc {u c v w} : WalkTo edges s u c → (u, v, w) ∈ edges →
      WalkTo edges s v (c + w)

/-- Predicate `IsChain edges s es t`: the edge sequence `es` forms a walk from `s` to
`t` using edges of the list. -/
def IsChain (edges : List Edge) : ℕ → List Edge → ℕ → Prop
  | s, [], t => s = t
  | s, e :: es, t => e ∈ edges ∧ e.1 = s ∧ IsChain edges e.2.1 es t

/-- Total weight of an edge sequence. -/
def chainCost (es : List Edge) : ℤ := (es.map (fun e => e.2.2)).sum

/-!
### `BellmanFord` with explicit index errors

Python raises `IndexError` when `dist[i]` is read or written for
`i` outside the list (negative indices, which Python would wrap, do not
arise for `ℕ`-valued vertices).  `Except Unit` carries that error.
-/

/-- Read `dist[i]`, raising on an out-of-range index. -/
def readD (dist : List (Option ℤ)) (i : ℕ) : Except Unit (Option ℤ) :=
  match dist.get? i with
  | some x => Except.ok x
  | none => Except.error ()

/-- One edge examination with index errors.  Python's `and` short-circuits:
`dist[v]` is only read when `dist[u]` is finite. -/
def relaxEdgeE (dist : List (Option ℤ)) (e : Edge) : Except Unit (List (Option ℤ)) :=
  match readD dist e.1 with
  | Except.error err => Except.error err
  | Except.ok none => Except.ok dist
  | Except.ok (some x) =>
      match readD dist e.2.1 with
      | Except.error err => Except.error err
      | Except.ok none => Except.ok (dist.set e.2.1 (some (x + e.2.2)))
      | Except.ok (some y) =>
          if x + e.2.2 < y then Except.ok (dist.set e.2.1 (some (x + e.2.2)))
          else Except.ok dist

/-- One full relaxation pass over the given edge list, aborting at the
first index error. -/
def relaxListE : List (Option ℤ) → List Edge → Except Unit (List (Option ℤ))
  | dist, [] => Except.ok dist
  | dist, e :: es =>
      match relaxEdgeE dist e with
      | Except.error err => Except.error err
      | Except.ok dist' => relaxListE dist' es

/-- The `for i in range(self.V - 1)` loop of passes. -/
def passesE (edges : List Edge) : ℕ → List (Option ℤ) → Except Unit (List (Option ℤ))
  | 0, dist => Except.ok dist
  | n + 1, dist =>
      match relaxListE dist edges with
      | Except.error err => Except.error err
      | Except.ok dist' => passesE edges n dist'

/-- The verification pass with index errors; `true` is the early
`print`-and-`return` on the first edge that still improves. -/
def verifyE (dist : List (Option ℤ)) : List Edge → Except Unit Bool
  | [] => Except.ok false
  | e :: es =>
      match readD dist e.1 with
      | Except.error err => Except.error err
      | Except.ok none => verifyE dist es
      | Except.ok (some x) =>
          match readD dist e.2.1 with
          | Except.error err => Except.error err
          | Except.ok none => Except.ok true
          | Except.ok (some y) =>
              if x + e.2.2 < y then Except.ok true else verifyE dist es

/-- The method `BellmanFord(src)` over Python lists: initialization
(`dist[src] = 0` raises if `src` is out of range), the `V - 1` passes, and
the verification pass. -/
def bellmanFordE (g : BFGraph) (src : ℕ) : Except Unit (Option (List (Option ℤ))) :=
  let d0 := List.replicate g.V (none : Option ℤ)
  if src < d0.length then
    match passesE g.edges (g.V - 1) (d0.set src (some 0)) with
    | Except.error err => Except.error err
    | Except.ok d =>
        match verifyE d g.edges with
        | Except.error err => Except.error err
        | Except.ok true => Except.ok none
        | Except.ok false => Except.ok (some d)
  else Except.error ()

/-!
### Auxiliary definitions for the proofs
-/

/-- Number of edges whose tail is not yet settled. -/
def freeDeg (edges : List Edge) (seen : List ℕ) : ℕ :=
  (edges.filter (fun e => decide (e.1 ∉ seen))).length

/-- The vertex list of a backward-linked path, most recent first. -/
def verts : PyPath → List ℕ
  | PyPath.nil => []
  | PyPath.cons v p => v :: verts p

/-- Predicate `GoodPath edges f p c`: the backward-linked path `p` starts (innermost)
at `f`, consecutive vertices are joined by edges of the input, and the
weights of those edges sum to `c`. -/
inductive GoodPath (edges : List Edge) (f : ℕ) : PyPath → ℤ → Prop where
  | base : GoodPath edges f (PyPath.cons f PyPath.nil) 0
  | step {p : PyPath} {u : ℕ} {c : ℤ} {v : ℕ} {w : ℤ} :
      GoodPath edges f (PyPath.cons u p) c → (u, v, w) ∈ edges →
      GoodPath edges f (PyPath.cons v (PyPath.cons u p)) (c + w)

/-- Loop invariant for one frontier entry `(c, v, p)`: `(v, p)` is a simple
edge path from the source of cost `c`, and the vertices of `p` are all
settled. -/
def EntryInv (edges : List Edge) (f : ℕ) (seen : List ℕ) (e : Entry) : Prop :=
  GoodPath edges f (PyPath.cons e.2.1 e.2.2) e.1 ∧
    (e.2.1 :: verts e.2.2).Nodup ∧ ∀ x ∈ verts e.2.2, x ∈ seen

/-- Pointwise comparison with `none` as the infinite sentinel on top. -/
def oleq (a b : Option ℤ) : Prop :=
  match b with
  | none => True
  | some y => ∃ x, a = some x ∧ x ≤ y

/-- Add a weight to a possibly-infinite table entry. -/
def oadd (a : Option ℤ) (w : ℤ) : Option ℤ := a.map (· + w)

/-- The update condition stated in the spec's words: `dist[u]` is finite
and `dist[u] + w < dist[v]`, where the infinite sentinel compares above
every finite value. -/
def Improves (dist : ℕ → Option ℤ) (u v : ℕ) (w : ℤ) : Prop :=
  ∃ x, dist u = some x ∧ ∀ y, dist v = some y → x + w < y

instance decidableImproves (dist : ℕ → Option ℤ) (u v : ℕ) (w : ℤ) :
    Decidable (Improves dist u v w) :=
  match hu : dist u with
  | none => isFalse (fun ⟨_, hx, _⟩ => by rw [hu] at hx; exact Option.noConfusion hx)
  | some x =>
    match hv : dist v with
    | none =>
        isTrue ⟨x, hu, fun y hy => by rw [hv] at hy; exact Option.noConfusion hy⟩
    | some y =>
        if hlt : x + w < y then
          isTrue ⟨x, hu, fun y' hy' => by
            rw [hv] at hy'
            injection hy' with hy'
            rw [← hy']
            exact hlt⟩
        else
          isFalse (fun ⟨x', hx', hall⟩ => by
            rw [hu] at hx'
            injection hx' with hx'
            apply hlt
            rw [hx']
            exact hall y hv)


/-!
### Frontier lemmas
-/

theorem minEntry_mem (m : Entry) (l : List Entry) : minEntry m l ∈ m :: l := by
  induction l generalizing m with
  | nil => exact List.mem_singleton_self m
  | cons e es ih =>
    show minEntry (if entryLt e m then e else m) es ∈ m :: e :: es
    rcases List.mem_cons.1 (ih (if entryLt e m then e else m)) with h1 | h1
    · rw [h1]
      by_cases hc : entryLt e m
      · simp [hc]
      · simp [hc]
    · exact List.mem_cons_of_mem _ (List.mem_cons_of_mem _ h1)

theorem popMin_mem {q : List Entry} {e : Entry} {q' : List Entry}
    (h : popMin q = some (e, q')) : e ∈ q := by
  cases q with
  | nil => simp [popMin] at h
  | cons a as =>
    simp only [popMin, Option.some.injEq, Prod.mk.injEq] at h
    rw [← h.1]
    exact minEntry_mem a as

theorem popMin_subset {q : List Entry} {e : Entry} {q' : List Entry}
    (h : popMin q = some (e, q')) : q' ⊆ q := by
  cases q with
  | nil => simp [popMin] at h
  | cons a as =>
    simp only [popMin, Option.some.injEq, Prod.mk.injEq] at h
    rw [← h.2]
    exact List.erase_subset _ _

theorem popMin_length {q : List Entry} {e : Entry} {q' : List Entry}
    (h : popMin q = some (e, q')) : q.length = q'.length + 1 := by
  cases q with
  | nil => simp [popMin] at h
  | cons a as =>
    simp only [popMin, Option.some.injEq, Prod.mk.injEq] at h
    rw [← h.2, List.length_erase_of_mem (minEntry_mem a as)]
    simp

theorem popMin_none {q : List Entry} (h : popMin q = none) : q = [] := by
  cases q with
  | nil => rfl
  | cons a as => simp [popMin] at h

/-!
### Termination measure for the search loop

Each loop iteration pops one entry; pushes happen only when a vertex is
settled, and then only along that vertex's outgoing edges.  The measure
`q.length + freeDeg edges seen` (frontier size plus the number of edges
leaving unsettled vertices) strictly decreases, so `1 + edges.length` pops
suffice.
-/

theorem adjOf_length (edges : List Edge) (v : ℕ) :
    (adjOf edges v).length = (edges.filter (fun e => decide (e.1 = v))).length := by
  simp [adjOf]

theorem freeDeg_cons (edges : List Edge) (seen : List ℕ) (v : ℕ) (hv : v ∉ seen) :
    freeDeg edges seen = freeDeg edges (v :: seen) + (adjOf edges v).length := by
  rw [adjOf_length]
  induction edges with
  | nil => rfl
  | cons e es ih =>
    simp only [freeDeg, List.filter_cons] at ih ⊢
    by_cases h1 : e.1 = v
    · have c1 : decide (e.1 ∉ seen) = true := by simp [h1, hv]
      have c2 : ¬ decide (e.1 ∉ v :: seen) = true := by simp [h1]
      have c3 : decide (e.1 = v) = true := by simp [h1]
      rw [if_pos c1, if_neg c2, if_pos c3]
      simp only [List.length_cons]
      omega
    · by_cases h2 : e.1 ∈ seen
      · have c1 : ¬ decide (e.1 ∉ seen) = true := by simp [h2]
        have c2 : ¬ decide (e.1 ∉ v :: seen) = true := by simp [h2]
        have c3 : ¬ decide (e.1 = v) = true := by simp [h1]
        rw [if_neg c1, if_neg c2, if_neg c3]
        exact ih
      · have c1 : decide (e.1 ∉ seen) = true := by simp [h2]
        have c2 : decide (e.1 ∉ v :: seen) = true := by simp [h1, h2]
        have c3 : ¬ decide (e.1 = v) = true := by simp [h1]
        rw [if_pos c1, if_pos c2, if_neg c3]
        simp only [List.length_cons]
        omega

theorem pushStep_length (seen : List ℕ) (cost : ℤ) (path : PyPath)
    (st : List Entry × (ℕ → Option ℤ)) (cv : ℤ × ℕ) :
    (pushStep seen cost path st cv).1.length ≤ st.1.length + 1 := by
  unfold pushStep
  by_cases h1 : cv.2 ∈ seen
  · simp [h1]
  · simp only [h1, if_false]
    match st.2 cv.2 with
    | none => simp
    | some prev =>
      by_cases h2 : cost + cv.1 < prev
      · simp [h2]
      · simp [h2]

theorem foldl_pushStep_length (seen : List ℕ) (cost : ℤ) (path : PyPath) :
    ∀ (l : List (ℤ × ℕ)) (q : List Entry) (mins : ℕ → Option ℤ),
      (l.foldl (pushStep seen cost path) (q, mins)).1.length ≤ q.length + l.length := by
  intro l
  induction l with
  | nil => intro q mins; simp
  | cons cv l ih =>
    intro q mins
    simp only [List.foldl_cons]
    have h1 : (pushStep seen cost path (q, mins) cv).1.length ≤ q.length + 1 :=
      pushStep_length seen cost path (q, mins) cv
    have h2 := ih (pushStep seen cost path (q, mins) cv).1
      (pushStep seen cost path (q, mins) cv).2
    rw [Prod.mk.eta] at h2
    simp only [List.length_cons]
    omega

theorem dloop_no_outOfFuel (edges : List Edge) (t : ℕ) :
    ∀ (fuel : ℕ) (q : List Entry) (seen : List ℕ) (mins : ℕ → Option ℤ),
      q.length + freeDeg edges seen ≤ fuel →
      (∃ c p, dloop (adjOf edges) t fuel q seen mins = DRes.found c p) ∨
        dloop (adjOf edges) t fuel q seen mins = DRes.unreachable := by
  intro fuel
  induction fuel with
  | zero =>
    intro q seen mins h
    have hq : q = [] := List.length_eq_zero.1 (by omega)
    subst hq
    right; rfl
  | succ fuel ih =>
    intro q seen mins h
    match hp : popMin q with
    | none =>
      right
      simp [dloop, hp]
    | some (e, q') =>
      have hlen := popMin_length hp
      by_cases hseen : e.2.1 ∈ seen
      · have heq : dloop (adjOf edges) t (fuel + 1) q seen mins =
            dloop (adjOf edges) t fuel q' seen mins := by
          simp [dloop, hp, hseen]
        rw [heq]
        exact ih q' seen mins (by omega)
      · by_cases ht : e.2.1 = t
        · left
          refine ⟨e.1, PyPath.cons e.2.1 e.2.2, ?_⟩
          subst ht
          simp [dloop, hp, hseen]
        · have heq : dloop (adjOf edges) t (fuel + 1) q seen mins =
              dloop (adjOf edges) t fuel
                ((adjOf edges e.2.1).foldl
                  (pushStep (e.2.1 :: seen) e.1 (PyPath.cons e.2.1 e.2.2)) (q', mins)).1
                (e.2.1 :: seen)
                ((adjOf edges e.2.1).foldl
                  (pushStep (e.2.1 :: seen) e.1 (PyPath.cons e.2.1 e.2.2)) (q', mins)).2 := by
            simp [dloop, hp, hseen, ht]
          rw [heq]
          apply ih
          have hfd := freeDeg_cons edges seen e.2.1 hseen
          have hql := foldl_pushStep_length (e.2.1 :: seen) e.1 (PyPath.cons e.2.1 e.2.2)
            (adjOf edges e.2.1) q' mins
          omega

/-- C5: on the edge list `[(0,1,4), (0,2,1), (2,1,2), (1,3,1), (2,3,5)]`
with source `0` and target `3` (all vertex indices below `V = 4`),
`dijkstra` returns cost `4` together with the backward-linked path
`(3, (1, (2, (0, ()))))`, i.e. the path `0 → 2 → 1 → 3`. -/
theorem dijkstra_example :
    dijkstra [(0, 1, 4), (0, 2, 1), (2, 1, 2), (1, 3, 1), (2, 3, 5)] 0 3 =
      DRes.found 4
        (PyPath.cons 3 (PyPath.cons 1 (PyPath.cons 2 (PyPath.cons 0 PyPath.nil)))) := by
  decide

/-- C7: when the frontier is exhausted (the `while q:` condition fails,
which is the only way the loop ends without the target having been popped),
the search returns the `float("inf")` sentinel — the `DRes.unreachable`
outcome — and not a `(cost, path)` pair, whatever the adjacency index,
target, remaining fuel, settled set, and best-known table are. -/
theorem dijkstra_empty_frontier (adj : ℕ → List (ℤ × ℕ)) (t : ℕ) (fuel : ℕ)
    (seen : List ℕ) (mins : ℕ → Option ℤ) :
    dloop adj t fuel [] seen mins = DRes.unreachable := by
  cases fuel <;> rfl

/-- C8: with source equal to target, the very first pop settles the source,
and the target test fires immediately: `dijkstra` returns cost `0` and the
single-vertex path `(f, ())`, for every edge list. -/
theorem dijkstra_source_eq_target (edges : List Edge) (f : ℕ) :
    dijkstra edges f f = DRes.found 0 (PyPath.cons f PyPath.nil) := by
  show dloop (adjOf edges) f (edges.length + 1) [(0, f, PyPath.nil)] []
    (fun v => if v = f then some 0 else none) = DRes.found 0 (PyPath.cons f PyPath.nil)
  simp [dloop, popMin, minEntry]

/-- C9: the search loop terminates on every input, including edge lists
with negative weights: each pop either discards a stale entry or settles a
new vertex, and pushes happen only when a vertex is settled and only along
its outgoing edges, so at most `1 + edges.length` entries ever enter the
frontier.  Consequently `dijkstra`, which runs the loop with that pop
budget, never exhausts it: every call returns a `(cost, path)` pair or the
unreachable sentinel. -/
theorem dijkstra_terminates (edges : List Edge) (f t : ℕ) :
    (∃ c p, dijkstra edges f t = DRes.found c p) ∨
      dijkstra edges f t = DRes.unreachable := by
  have hfd : freeDeg edges [] ≤ edges.length := List.length_filter_le _ _
  apply dloop_no_outOfFuel edges t (edges.length + 1) [(0, f, PyPath.nil)] []
    (fun v => if v = f then some 0 else none)
  simp only [List.length_cons, List.length_nil]
  omega

/-!
### Path validity (claim C10)

Every frontier entry carries the settled path of its predecessor; the loop
invariant below says that path is a genuine simple edge path from the
source whose weights sum to the entry's cost, and that all its vertices are
settled.
-/

theorem goodPath_last {edges : List Edge} {f : ℕ} {p : PyPath} {c : ℤ}
    (h : GoodPath edges f p c) : (verts p).getLast? = some f := by
  induction h with
  | base => rfl
  | step _ _ ih =>
    simp only [verts] at ih ⊢
    rw [List.getLast?_cons_cons]
    exact ih

theorem adjOf_mem {edges : List Edge} {v1 : ℕ} {c : ℤ} {v2 : ℕ}
    (h : (c, v2) ∈ adjOf edges v1) : (v1, v2, c) ∈ edges := by
  simp only [adjOf, List.mem_map, List.mem_filter, decide_eq_true_eq] at h
  obtain ⟨⟨u, v, w⟩, ⟨he, hv⟩, heq⟩ := h
  simp only [Prod.mk.injEq] at heq
  obtain ⟨h1, h2⟩ := heq
  subst hv h1 h2
  exact he

theorem entryInv_mono {edges : List Edge} {f : ℕ} {seen seen' : List ℕ} {e : Entry}
    (h : EntryInv edges f seen e) (hsub : ∀ x ∈ seen, x ∈ seen') :
    EntryInv edges f seen' e :=
  ⟨h.1, h.2.1, fun x hx => hsub x (h.2.2 x hx)⟩

theorem pushStep_fst_cases (seen : List ℕ) (cost : ℤ) (path : PyPath)
    (st : List Entry × (ℕ → Option ℤ)) (cv : ℤ × ℕ) :
    (pushStep seen cost path st cv).1 = st.1 ∨
      ((pushStep seen cost path st cv).1 = (cost + cv.1, cv.2, path) :: st.1 ∧
        cv.2 ∉ seen) := by
  unfold pushStep
  by_cases h1 : cv.2 ∈ seen
  · left; simp [h1]
  · cases hm : st.2 cv.2 with
    | none =>
      right
      refine ⟨?_, h1⟩
      simp [h1, hm]
    | some prev =>
      by_cases h2 : cost + cv.1 < prev
      · right
        refine ⟨?_, h1⟩
        simp [h1, hm, h2]
      · left
        simp [h1, hm, h2]

theorem foldl_pushStep_inv (edges : List Edge) (f : ℕ) (v1 : ℕ) (seen : List ℕ)
    (cost : ℤ) (p0 : PyPath)
    (hgood : GoodPath edges f (PyPath.cons v1 p0) cost)
    (hnodup : (v1 :: verts p0).Nodup)
    (hsub : ∀ x ∈ verts p0, x ∈ seen) :
    ∀ (l : List (ℤ × ℕ)), (∀ cv ∈ l, (v1, cv.2, cv.1) ∈ edges) →
      ∀ (st : List Entry × (ℕ → Option ℤ)),
        (∀ e ∈ st.1, EntryInv edges f (v1 :: seen) e) →
        ∀ e ∈ (l.foldl (pushStep (v1 :: seen) cost (PyPath.cons v1 p0)) st).1,
          EntryInv edges f (v1 :: seen) e := by
  intro l
  induction l with
  | nil => intro _ st hst; simpa using hst
  | cons cv l ih =>
    intro hl st hst
    simp only [List.foldl_cons]
    apply ih (fun x hx => hl x (List.mem_cons_of_mem _ hx))
    rcases pushStep_fst_cases (v1 :: seen) cost (PyPath.cons v1 p0) st cv with hc | ⟨hc, hnew⟩
    · rw [hc]; exact hst
    · rw [hc]
      intro e he
      rcases List.mem_cons.1 he with he1 | he1
      · subst he1
        refine ⟨GoodPath.step hgood (hl cv (List.mem_cons_self _ _)), ?_, ?_⟩
        · refine List.nodup_cons.2 ⟨?_, hnodup⟩
          intro hmem
          apply hnew
          rcases List.mem_cons.1 hmem with h | h
          · exact h ▸ List.mem_cons_self _ _
          · exact List.mem_cons_of_mem _ (hsub _ h)
        · intro x hx
          rcases List.mem_cons.1 hx with h | h
          · exact h ▸ List.mem_cons_self _ _
          · exact List.mem_cons_of_mem _ (hsub _ h)
      · exact hst e he1

theorem dloop_found_good (edges : List Edge) (f t : ℕ) :
    ∀ (fuel : ℕ) (q : List Entry) (seen : List ℕ) (mins : ℕ → Option ℤ),
      (∀ e ∈ q, EntryInv edges f seen e) →
      ∀ c p, dloop (adjOf edges) t fuel q seen mins = DRes.found c p →
        GoodPath edges f p c ∧ (verts p).Nodup ∧ ∃ p', p = PyPath.cons t p' := by
  intro fuel
  induction fuel with
  | zero =>
    intro q seen mins hq c p h
    cases hp : popMin q with
    | none => simp [dloop, hp] at h
    | some ep => simp [dloop, hp] at h
  | succ fuel ih =>
    intro q seen mins hq c p h
    cases hp : popMin q with
    | none => simp [dloop, hp] at h
    | some ep =>
      obtain ⟨e, q'⟩ := ep
      have hinvq' : ∀ x ∈ q', EntryInv edges f seen x :=
        fun x hx => hq x (popMin_subset hp hx)
      have hinve : EntryInv edges f seen e := hq e (popMin_mem hp)
      by_cases hseen : e.2.1 ∈ seen
      · have heq : dloop (adjOf edges) t (fuel + 1) q seen mins =
            dloop (adjOf edges) t fuel q' seen mins := by
          simp [dloop, hp, hseen]
        exact ih q' seen mins hinvq' c p (heq ▸ h)
      · by_cases ht : e.2.1 = t
        · subst ht
          have heq : dloop (adjOf edges) e.2.1 (fuel + 1) q seen mins =
              DRes.found e.1 (PyPath.cons e.2.1 e.2.2) := by
            simp [dloop, hp, hseen]
          rw [heq] at h
          obtain ⟨hc, hpath⟩ : e.1 = c ∧ PyPath.cons e.2.1 e.2.2 = p := by
            cases h; exact ⟨rfl, rfl⟩
          subst hc hpath
          exact ⟨hinve.1, by rw [verts]; exact hinve.2.1, e.2.2, rfl⟩
        · have heq : dloop (adjOf edges) t (fuel + 1) q seen mins =
              dloop (adjOf edges) t fuel
                ((adjOf edges e.2.1).foldl
                  (pushStep (e.2.1 :: seen) e.1 (PyPath.cons e.2.1 e.2.2)) (q', mins)).1
                (e.2.1 :: seen)
                ((adjOf edges e.2.1).foldl
                  (pushStep (e.2.1 :: seen) e.1 (PyPath.cons e.2.1 e.2.2)) (q', mins)).2 := by
            simp [dloop, hp, hseen, ht]
          apply ih _ (e.2.1 :: seen) _ ?_ c p (heq ▸ h)
          apply foldl_pushStep_inv edges f e.2.1 seen e.1 e.2.2 hinve.1 hinve.2.1 hinve.2.2
          · intro cv hcv
            exact adjOf_mem hcv
          · intro x hx
            exact entryInv_mono (hinvq' x hx) (fun y hy => List.mem_cons_of_mem _ hy)

/-- C10: whenever `dijkstra` returns a `(cost, path)` pair, the
backward-linked path is a simple path (no repeated vertices) whose head is
the target and whose innermost vertex is the source, consecutive vertices
are joined by edges of the input, and the cost is the sum of the weights of
those edges (all of which `GoodPath` expresses). -/
theorem dijkstra_path_valid (edges : List Edge) (f t : ℕ) (c : ℤ) (p : PyPath)
    (h : dijkstra edges f t = DRes.found c p) :
    GoodPath edges f p c ∧ (verts p).Nodup ∧ (∃ p', p = PyPath.cons t p') ∧
      (verts p).getLast? = some f := by
  unfold dijkstra at h
  have hmain := dloop_found_good edges f t (edges.length + 1) [(0, f, PyPath.nil)] []
    (fun v => if v = f then some 0 else none) ?_ c p h
  · exact ⟨hmain.1, hmain.2.1, hmain.2.2, goodPath_last hmain.1⟩
  · intro e he
    rw [List.mem_singleton] at he
    subst he
    exact ⟨GoodPath.base, by simp [verts], by simp [verts]⟩

/-- Closed instantiation of `dijkstra_path_valid` at the example input. -/
theorem dijkstra_path_valid_witness :
    GoodPath [(0, 1, 4), (0, 2, 1), (2, 1, 2), (1, 3, 1), (2, 3, 5)] 0
        (PyPath.cons 3 (PyPath.cons 1 (PyPath.cons 2 (PyPath.cons 0 PyPath.nil)))) 4 ∧
      (verts (PyPath.cons 3 (PyPath.cons 1 (PyPath.cons 2 (PyPath.cons 0 PyPath.nil))))).Nodup ∧
      (∃ p', PyPath.cons 3 (PyPath.cons 1 (PyPath.cons 2 (PyPath.cons 0 PyPath.nil))) =
        PyPath.cons 3 p') ∧
      (verts (PyPath.cons 3 (PyPath.cons 1
        (PyPath.cons 2 (PyPath.cons 0 PyPath.nil))))).getLast? = some 0 :=
  dijkstra_path_valid [(0, 1, 4), (0, 2, 1), (2, 1, 2), (1, 3, 1), (2, 3, 5)] 0 3 4
    (PyPath.cons 3 (PyPath.cons 1 (PyPath.cons 2 (PyPath.cons 0 PyPath.nil)))) (by decide)

/-!
### Order and soundness lemmas for the relaxation table

`oleq a b` is the pointwise "at most" on table entries, with the `Inf`
sentinel on top: relaxation only ever lowers entries.  Every finite entry
is realized by a walk from the source.
-/

theorem oleq_refl (a : Option ℤ) : oleq a a := by
  cases a with
  | none => trivial
  | some x => exact ⟨x, rfl, le_refl x⟩

theorem oleq_trans {a b c : Option ℤ} (h1 : oleq a b) (h2 : oleq b c) : oleq a c := by
  cases c with
  | none => trivial
  | some z =>
    obtain ⟨y, hy, hyz⟩ := h2
    rw [hy] at h1
    obtain ⟨x, hx, hxy⟩ := h1
    exact ⟨x, hx, le_trans hxy hyz⟩

theorem updF_apply (f : ℕ → Option ℤ) (a : ℕ) (x : Option ℤ) (i : ℕ) :
    updF f a x i = if i = a then x else f i := rfl

theorem relaxEdge_le (dist : ℕ → Option ℤ) (e : Edge) (i : ℕ) :
    oleq (relaxEdge dist e i) (dist i) := by
  cases hu : dist e.1 with
  | none => simp only [relaxEdge, hu]; exact oleq_refl _
  | some du =>
    cases hv : dist e.2.1 with
    | none =>
      simp only [relaxEdge, hu, hv, updF_apply]
      by_cases hi : i = e.2.1
      · rw [if_pos hi, hi, hv]; trivial
      · rw [if_neg hi]; exact oleq_refl _
    | some dv =>
      by_cases hlt : du + e.2.2 < dv
      · simp only [relaxEdge, hu, hv, if_pos hlt, updF_apply]
        by_cases hi : i = e.2.1
        · rw [if_pos hi, hi, hv]
          exact ⟨du + e.2.2, rfl, le_of_lt hlt⟩
        · rw [if_neg hi]; exact oleq_refl _
      · simp only [relaxEdge, hu, hv, if_neg hlt]; exact oleq_refl _

theorem foldl_relax_le (l : List Edge) : ∀ (dist : ℕ → Option ℤ) (i : ℕ),
    oleq ((l.foldl relaxEdge dist) i) (dist i) := by
  induction l with
  | nil => intro dist i; exact oleq_refl _
  | cons e es ih =>
    intro dist i
    exact oleq_trans (ih (relaxEdge dist e) i) (relaxEdge_le dist e i)

theorem iterate_relax_le (edges : List Edge) : ∀ (n : ℕ) (dist : ℕ → Option ℤ) (i : ℕ),
    oleq (((relaxPass edges)^[n] dist) i) (dist i) := by
  intro n
  induction n with
  | zero => intro dist i; exact oleq_refl _
  | succ n ih =>
    intro dist i
    rw [Function.iterate_succ_apply]
    exact oleq_trans (ih (relaxPass edges dist) i) (foldl_relax_le edges dist i)

theorem foldl_relax_sound (edges : List Edge) (s : ℕ) :
    ∀ (l : List Edge), (∀ e ∈ l, e ∈ edges) →
      ∀ (dist : ℕ → Option ℤ), (∀ v c, dist v = some c → WalkTo edges s v c) →
        ∀ v c, (l.foldl relaxEdge dist) v = some c → WalkTo edges s v c := by
  intro l
  induction l with
  | nil => intro _ dist hd; exact hd
  | cons e es ih =>
    intro hl dist hd
    apply ih (fun x hx => hl x (List.mem_cons_of_mem _ hx))
    intro v c h
    cases hu : dist e.1 with
    | none =>
      simp only [relaxEdge, hu] at h
      exact hd v c h
    | some du =>
      have hwalkstep : WalkTo edges s e.2.1 (du + e.2.2) :=
        WalkTo.snoc (hd e.1 du hu) (hl e (List.mem_cons_self _ _))
      cases hv : dist e.2.1 with
      | none =>
        simp only [relaxEdge, hu, hv, updF_apply] at h
        by_cases hi : v = e.2.1
        · rw [if_pos hi] at h
          injection h with h
          rw [← h, hi]
          exact hwalkstep
        · rw [if_neg hi] at h
          exact hd v c h
      | some dv =>
        by_cases hlt : du + e.2.2 < dv
        · simp only [relaxEdge, hu, hv, if_pos hlt, updF_apply] at h
          by_cases hi : v = e.2.1
          · rw [if_pos hi] at h
            injection h with h
            rw [← h, hi]
            exact hwalkstep
          · rw [if_neg hi] at h
            exact hd v c h
        · simp only [relaxEdge, hu, hv, if_neg hlt] at h
          exact hd v c h

theorem iterate_relax_sound (edges : List Edge) (s : ℕ) :
    ∀ (n : ℕ) (v : ℕ) (c : ℤ),
      ((relaxPass edges)^[n] (initDist s)) v = some c → WalkTo edges s v c := by
  intro n
  induction n with
  | zero =>
    intro v c h
    rw [Function.iterate_zero_apply] at h
    simp only [initDist] at h
    by_cases hv : v = s
    · rw [if_pos hv] at h
      injection h with h
      rw [← h, hv]
      exact WalkTo.refl
    · rw [if_neg hv] at h
      exact absurd h (Option.noConfusion)
  | succ n ih =>
    intro v c h
    rw [Function.iterate_succ_apply'] at h
    exact foldl_relax_sound edges s edges (fun _ hx => hx)
      ((relaxPass edges)^[n] (initDist s)) ih v c h

theorem foldl_range_iterate {α : Type} (g : α → α) :
    ∀ (n : ℕ) (a : α), (List.range n).foldl (fun x _ => g x) a = g^[n] a := by
  intro n
  induction n with
  | zero => intro a; rfl
  | succ n ih =>
    intro a
    rw [List.range_succ, List.foldl_append, ih, List.foldl_cons, List.foldl_nil,
      Function.iterate_succ_apply']

theorem bfTable_eq_iterate (g : BFGraph) (src : ℕ) :
    bfTable g src = (relaxPass g.edges)^[g.V - 1] (initDist src) :=
  foldl_range_iterate (relaxPass g.edges) (g.V - 1) (initDist src)

theorem bfTable_sound (g : BFGraph) (src : ℕ) (v : ℕ) (c : ℤ)
    (h : bfTable g src v = some c) : WalkTo g.edges src v c := by
  rw [bfTable_eq_iterate] at h
  exact iterate_relax_sound g.edges src (g.V - 1) v c h

theorem bfTable_src_le (g : BFGraph) (src : ℕ) :
    ∃ x, bfTable g src src = some x ∧ x ≤ 0 := by
  have h := iterate_relax_le g.edges (g.V - 1) (initDist src) src
  rw [← bfTable_eq_iterate] at h
  have hinit : initDist src src = some 0 := by simp [initDist]
  rw [hinit] at h
  exact h

theorem improvable_false_edge {edges : List Edge} {dist : ℕ → Option ℤ}
    (h : improvable edges dist = false) {u v : ℕ} {w : ℤ} (he : (u, v, w) ∈ edges)
    {x : ℤ} (hx : dist u = some x) : ∃ y, dist v = some y ∧ y ≤ x + w := by
  unfold improvable at h
  rw [List.any_eq_false] at h
  have h2 := h _ he
  cases hv : dist v with
  | none =>
    simp only [hx, hv] at h2
    exact absurd trivial h2
  | some y =>
    simp only [hx, hv, decide_eq_true_eq, not_lt] at h2
    exact ⟨y, rfl, h2⟩

theorem fixed_point_bound {g : BFGraph} {src : ℕ}
    (hfix : improvable g.edges (bfTable g src) = false) :
    ∀ v c, WalkTo g.edges src v c → ∃ y, bfTable g src v = some y ∧ y ≤ c := by
  intro v c hw
  induction hw with
  | refl => exact bfTable_src_le g src
  | snoc _ he ih =>
    obtain ⟨x, hx, hxc⟩ := ih
    obtain ⟨y, hy, hyx⟩ := improvable_false_edge hfix he hx
    exact ⟨y, hy, by omega⟩

/-- C1: when the verification pass finds no further improvement, the call
returns the complete distance table, and that table assigns every vertex
its minimal walk distance from the source: a finite entry is the weight of
some walk from the source and a lower bound on the weight of every such
walk, and a vertex with no walk from the source keeps the infinite
sentinel `none`.  The well-formedness hypotheses state the caller-side
range invariant under which the Python list indexing is total. -/
theorem bellmanFord_correct (g : BFGraph) (src : ℕ)
    (_hw : ∀ e ∈ g.edges, e.1 < g.V ∧ e.2.1 < g.V) (_hs : src < g.V)
    (hfix : improvable g.edges (bfTable g src) = false) :
    bellmanFord g src = some (bfTable g src) ∧
      ∀ v, (∀ c, bfTable g src v = some c →
              WalkTo g.edges src v c ∧ ∀ c', WalkTo g.edges src v c' → c ≤ c') ∧
        (bfTable g src v = none → ¬ ∃ c, WalkTo g.edges src v c) := by
  refine ⟨by simp [bellmanFord, hfix], ?_⟩
  intro v
  constructor
  · intro c hc
    refine ⟨bfTable_sound g src v c hc, ?_⟩
    intro c' hw'
    obtain ⟨y, hy, hyc⟩ := fixed_point_bound hfix v c' hw'
    rw [hc] at hy
    injection hy with hy
    omega
  · intro hnone ⟨c, hw'⟩
    obtain ⟨y, hy, _⟩ := fixed_point_bound hfix v c hw'
    rw [hnone] at hy
    exact Option.noConfusion hy

/-- Closed instantiation of `bellmanFord_correct` on the example graph
(`V = 4`, all endpoints in range, verification pass clean). -/
theorem bellmanFord_correct_witness :
    bellmanFord ⟨4, [(0, 1, 4), (0, 2, 1), (2, 1, 2), (1, 3, 1), (2, 3, 5)]⟩ 0 =
        some (bfTable ⟨4, [(0, 1, 4), (0, 2, 1), (2, 1, 2), (1, 3, 1), (2, 3, 5)]⟩ 0) ∧
      ∀ v, (∀ c, bfTable ⟨4, [(0, 1, 4), (0, 2, 1), (2, 1, 2), (1, 3, 1), (2, 3, 5)]⟩ 0 v =
              some c →
              WalkTo [(0, 1, 4), (0, 2, 1), (2, 1, 2), (1, 3, 1), (2, 3, 5)] 0 v c ∧
                ∀ c', WalkTo [(0, 1, 4), (0, 2, 1), (2, 1, 2), (1, 3, 1), (2, 3, 5)] 0 v c' →
                  c ≤ c') ∧
        (bfTable ⟨4, [(0, 1, 4), (0, 2, 1), (2, 1, 2), (1, 3, 1), (2, 3, 5)]⟩ 0 v = none →
          ¬ ∃ c, WalkTo [(0, 1, 4), (0, 2, 1), (2, 1, 2), (1, 3, 1), (2, 3, 5)] 0 v c) :=
  bellmanFord_correct ⟨4, [(0, 1, 4), (0, 2, 1), (2, 1, 2), (1, 3, 1), (2, 3, 5)]⟩ 0
    (by decide) (by decide) (by decide)

/-- C2: if after the `V - 1` relaxation passes some edge `(u, v, w)` with
finite `dist[u]` still satisfies `dist[u] + w < dist[v]` (with the
infinite sentinel counting as larger than every finite value), the call
reports the negative cycle — modelled as the `none` outcome, which carries
no distance values: the computed table is discarded, never surfaced. -/
theorem bellmanFord_negCycle (g : BFGraph) (src : ℕ)
    (_hw : ∀ e ∈ g.edges, e.1 < g.V ∧ e.2.1 < g.V) (_hs : src < g.V)
    (h : ∃ e ∈ g.edges, ∃ x, bfTable g src e.1 = some x ∧
      (bfTable g src e.2.1 = none ∨
        ∃ y, bfTable g src e.2.1 = some y ∧ x + e.2.2 < y)) :
    bellmanFord g src = none := by
  have himp : improvable g.edges (bfTable g src) = true := by
    unfold improvable
    rw [List.any_eq_true]
    obtain ⟨e, he, x, hx, hrest⟩ := h
    refine ⟨e, he, ?_⟩
    rw [hx]
    rcases hrest with h1 | ⟨y, h1, h2⟩
    · rw [h1]
    · rw [h1]
      simp [h2]
  simp [bellmanFord, himp]

/-- Closed instantiation of `bellmanFord_negCycle` on the specification's
3-vertex negative cycle, whose table still improves along `(2, 0, -3)`. -/
theorem bellmanFord_negCycle_witness :
    bellmanFord ⟨3, [(0, 1, 1), (1, 2, 1), (2, 0, -3)]⟩ 0 = none :=
  bellmanFord_negCycle ⟨3, [(0, 1, 1), (1, 2, 1), (2, 0, -3)]⟩ 0
    (by decide) (by decide) (by decide)

/-!
### The exact update rule (claim C3)
-/

/-- C3: the table handed to the verification pass is exactly the result of
`V - 1` iterated full passes over the edge list starting from the initial
table, and each edge examination updates `dist[v]` to `dist[u] + w`
exactly when `dist[u]` is finite and `dist[u] + w < dist[v]`, leaving the
table unchanged otherwise. -/
theorem bellmanFord_pass_structure (g : BFGraph) (src : ℕ) :
    bfTable g src = (relaxPass g.edges)^[g.V - 1] (initDist src) ∧
      ∀ (dist : ℕ → Option ℤ) (u v : ℕ) (w : ℤ),
        relaxEdge dist (u, v, w) =
          if Improves dist u v w then updF dist v (Option.map (· + w) (dist u))
          else dist := by
  refine ⟨bfTable_eq_iterate g src, ?_⟩
  intro dist u v w
  cases hu : dist u with
  | none =>
    have himp : ¬ Improves dist u v w :=
      fun ⟨_, hx, _⟩ => by rw [hu] at hx; exact Option.noConfusion hx
    simp only [relaxEdge, hu]
    rw [if_neg himp]
  | some x =>
    cases hv : dist v with
    | none =>
      have himp : Improves dist u v w :=
        ⟨x, hu, fun y hy => by rw [hv] at hy; exact Option.noConfusion hy⟩
      simp only [relaxEdge, hu, hv]
      rw [if_pos himp]
      rfl
    | some y =>
      by_cases hlt : x + w < y
      · have himp : Improves dist u v w := ⟨x, hu, fun y' hy' => by
          rw [hv] at hy'
          injection hy' with hy'
          rw [← hy']
          exact hlt⟩
        simp only [relaxEdge, hu, hv, if_pos hlt]
        rw [if_pos himp]
        rfl
      · have himp : ¬ Improves dist u v w := fun ⟨x', hx', hall⟩ => by
          rw [hu] at hx'
          injection hx' with hx'
          apply hlt
          rw [hx']
          exact hall y hv
        simp only [relaxEdge, hu, hv, if_neg hlt]
        rw [if_neg himp]

/-!
### Out-of-range behaviour (claim C4)

`dijkstra` takes no vertex count at all and never validates indices; it
simply computes.  `BellmanFord` only fails — with a generic index error,
not a designed out-of-range outcome — when an out-of-range index is
actually dereferenced, and an edge whose head is out of range but whose
tail still has the infinite sentinel is skipped entirely.
-/

theorem readD_error_of_ge {dist : List (Option ℤ)} {i : ℕ} (h : dist.length ≤ i) :
    readD dist i = Except.error () := by
  unfold readD
  rw [List.get?_eq_none.mpr h]

theorem relaxEdgeE_ok_length {dist : List (Option ℤ)} {e : Edge}
    {dist' : List (Option ℤ)} (h : relaxEdgeE dist e = Except.ok dist') :
    dist'.length = dist.length := by
  cases h1 : readD dist e.1 with
  | error err =>
    simp only [relaxEdgeE, h1] at h
    exact Except.noConfusion h
  | ok du =>
    cases du with
    | none =>
      simp only [relaxEdgeE, h1] at h
      injection h with h
      rw [← h]
    | some x =>
      cases h2 : readD dist e.2.1 with
      | error err =>
        simp only [relaxEdgeE, h1, h2] at h
        exact Except.noConfusion h
      | ok dv =>
        cases dv with
        | none =>
          simp only [relaxEdgeE, h1, h2] at h
          injection h with h
          rw [← h, List.length_set]
        | some y =>
          by_cases hlt : x + e.2.2 < y
          · simp only [relaxEdgeE, h1, h2, if_pos hlt] at h
            injection h with h
            rw [← h, List.length_set]
          · simp only [relaxEdgeE, h1, h2, if_neg hlt] at h
            injection h with h
            rw [← h]

theorem relaxEdgeE_error_of_bad {dist : List (Option ℤ)} {e : Edge}
    (h : dist.length ≤ e.1) : relaxEdgeE dist e = Except.error () := by
  unfold relaxEdgeE
  rw [readD_error_of_ge h]

theorem relaxListE_error_of_bad :
    ∀ (l : List Edge) (dist : List (Option ℤ)),
      (∃ e ∈ l, dist.length ≤ e.1) → relaxListE dist l = Except.error () := by
  intro l
  induction l with
  | nil => intro dist h; simp at h
  | cons e es ih =>
    intro dist h
    show (match relaxEdgeE dist e with
      | Except.error err => Except.error err
      | Except.ok dist' => relaxListE dist' es) = Except.error ()
    by_cases hbad : dist.length ≤ e.1
    · rw [relaxEdgeE_error_of_bad hbad]
    · have hrest : ∃ x ∈ es, dist.length ≤ x.1 := by
        obtain ⟨x, hx, hlen⟩ := h
        rcases List.mem_cons.1 hx with h1 | h1
        · exact absurd (h1 ▸ hlen) hbad
        · exact ⟨x, h1, hlen⟩
      cases hr : relaxEdgeE dist e with
      | error err => rfl
      | ok dist' =>
        have hlen := relaxEdgeE_ok_length hr
        exact ih dist' (by rw [hlen]; exact hrest)

theorem passesE_error_of_bad (edges : List Edge) (n : ℕ) (dist : List (Option ℤ))
    (hn : 1 ≤ n) (h : ∃ e ∈ edges, dist.length ≤ e.1) :
    passesE edges n dist = Except.error () := by
  cases n with
  | zero => omega
  | succ n =>
    show (match relaxListE dist edges with
      | Except.error err => Except.error err
      | Except.ok dist' => passesE edges n dist') = Except.error ()
    rw [relaxListE_error_of_bad edges dist h]

/-- C4 (amended): any edge whose tail lies outside `[0, V)` makes
`BellmanFord` fail with the uncaught generic index error as soon as a
relaxation pass examines it — which, with `V ≥ 2`, is guaranteed to
happen. -/
theorem bellmanFordE_range_error (g : BFGraph) (src : ℕ) (hV : 2 ≤ g.V)
    (hbad : ∃ e ∈ g.edges, g.V ≤ e.1) :
    bellmanFordE g src = Except.error () := by
  unfold bellmanFordE
  by_cases hs : src < (List.replicate g.V (none : Option ℤ)).length
  · rw [if_pos hs]
    have hlen : ((List.replicate g.V (none : Option ℤ)).set src (some 0)).length = g.V := by
      rw [List.length_set, List.length_replicate]
    have herr : passesE g.edges (g.V - 1) ((List.replicate g.V (none : Option ℤ)).set src
        (some 0)) = Except.error () := by
      apply passesE_error_of_bad g.edges (g.V - 1) _ (by omega)
      rw [hlen]
      exact hbad
    rw [herr]
  · rw [if_neg hs]

/-- Closed instantiation of `bellmanFordE_range_error`: edge `(5, 0, 1)`
with `V = 2` raises during the first relaxation pass. -/
theorem bellmanFordE_range_error_witness :
    bellmanFordE ⟨2, [(5, 0, 1)]⟩ 0 = Except.error () :=
  bellmanFordE_range_error ⟨2, [(5, 0, 1)]⟩ 0 (by decide) (by decide)

/-- C4 counterexample: neither engine surfaces an out-of-range error.
With the two-vertex universe of either call in mind, `dijkstra` on the
edge list `[(0, 5, 1)]` with target `5` happily computes a result instead
of reporting a range violation, and `BellmanFord` with `V = 2` on the edge
list `[(1, 7, 0)]` — head `7` far outside `[0, 2)` — finishes without any
error and with a table, because the out-of-range head hides behind a tail
whose distance is still the infinite sentinel. -/
theorem outOfRange_counterexample :
    dijkstra [(0, 5, 1)] 0 5 = DRes.found 1 (PyPath.cons 5 (PyPath.cons 0 PyPath.nil)) ∧
      bellmanFordE ⟨2, [(1, 7, 0)]⟩ 0 = Except.ok (some [some 0, none]) :=
  ⟨by decide, by rfl⟩

/-!
### The fixed-point property without a negative cycle (claim C6)

The classical Bellman-Ford argument: the table after `k` passes is bounded
by the cost of every chain of at most `k` edges; when no cycle reachable
from the source has negative weight, every chain can be shortened to at
most `V - 1` edges without increasing its cost (cutting out the cycle at a
repeated vertex, by pigeonhole on the vertex sequence); hence after
`V - 1` passes no edge can still improve the table.
-/

theorem oadd_mono {a b : Option ℤ} {w : ℤ} (h : oleq a b) : oleq (oadd a w) (oadd b w) := by
  cases b with
  | none => trivial
  | some y =>
    obtain ⟨x, hx, hxy⟩ := h
    show oleq (oadd a w) (some (y + w))
    exact ⟨x + w, by rw [oadd, hx]; rfl, by omega⟩

theorem isChain_append (edges : List Edge) :
    ∀ (es₁ es₂ : List Edge) (s t : ℕ),
      IsChain edges s (es₁ ++ es₂) t ↔
        ∃ m, IsChain edges s es₁ m ∧ IsChain edges m es₂ t := by
  intro es₁
  induction es₁ with
  | nil =>
    intro es₂ s t
    constructor
    · intro h
      exact ⟨s, rfl, h⟩
    · rintro ⟨m, h1, h2⟩
      have hm : s = m := h1
      rw [List.nil_append]
      rw [hm]
      exact h2
  | cons e es₁ ih =>
    intro es₂ s t
    constructor
    · rintro ⟨he, he1, hch⟩
      obtain ⟨m, h1, h2⟩ := (ih es₂ e.2.1 t).1 hch
      exact ⟨m, ⟨he, he1, h1⟩, h2⟩
    · rintro ⟨m, ⟨he, he1, h1⟩, h2⟩
      exact ⟨he, he1, (ih es₂ e.2.1 t).2 ⟨m, h1, h2⟩⟩

theorem chainCost_append (es₁ es₂ : List Edge) :
    chainCost (es₁ ++ es₂) = chainCost es₁ + chainCost es₂ := by
  simp [chainCost]

theorem isChain_sub (edges : List Edge) :
    ∀ (es : List Edge) (s t : ℕ), IsChain edges s es t → ∀ e ∈ es, e ∈ edges := by
  intro es
  induction es with
  | nil =>
    intro s t _ e he
    simp at he
  | cons e0 es ih =>
    intro s t hch e he
    obtain ⟨he0, _, hch'⟩ := hch
    rcases List.mem_cons.1 he with h | h
    · exact h ▸ he0
    · exact ih e0.2.1 t hch' e h

theorem chain_of_walkTo {edges : List Edge} {s t : ℕ} {c : ℤ} (h : WalkTo edges s t c) :
    ∃ es, IsChain edges s es t ∧ chainCost es = c := by
  induction h with
  | refl => exact ⟨[], rfl, rfl⟩
  | @snoc u c v w _ he ih =>
    obtain ⟨es, hch, hc⟩ := ih
    refine ⟨es ++ [(u, v, w)], ?_, ?_⟩
    · exact (isChain_append edges es [(u, v, w)] s v).2 ⟨u, hch, he, rfl, rfl⟩
    · rw [chainCost_append, hc]
      simp [chainCost]

theorem exists_dup_split :
    ∀ (l : List ℕ), ¬ l.Nodup → ∃ l₁ a l₂ l₃, l = l₁ ++ a :: l₂ ++ a :: l₃ := by
  intro l
  induction l with
  | nil => intro h; exact absurd List.nodup_nil h
  | cons x xs ih =>
    intro h
    by_cases hx : x ∈ xs
    · obtain ⟨s, t, rfl⟩ := List.append_of_mem hx
      exact ⟨[], x, s, t, by simp⟩
    · have hnd : ¬ xs.Nodup := fun hnd => h (List.nodup_cons.2 ⟨hx, hnd⟩)
      obtain ⟨l₁, a, l₂, l₃, rfl⟩ := ih hnd
      exact ⟨x :: l₁, a, l₂, l₃, rfl⟩

theorem not_nodup_of_bound {l : List ℕ} {V : ℕ} (hbound : ∀ x ∈ l, x < V)
    (hlen : V < l.length) : ¬ l.Nodup := by
  intro hnd
  have h1 : l.toFinset.card = l.length := List.toFinset_card_of_nodup hnd
  have h2 : l.toFinset ⊆ Finset.range V := by
    intro x hx
    rw [List.mem_toFinset] at hx
    rw [Finset.mem_range]
    exact hbound x hx
  have h3 := Finset.card_le_card h2
  rw [Finset.card_range, h1] at h3
  omega

theorem chain_split (edges : List Edge) :
    ∀ (l₁ : List ℕ) (a : ℕ) (rest : List ℕ) (es : List Edge) (s t : ℕ),
      IsChain edges s es t →
      s :: es.map (fun e => e.2.1) = l₁ ++ a :: rest →
      ∃ es₁ es₂, es = es₁ ++ es₂ ∧ IsChain edges s es₁ a ∧ IsChain edges a es₂ t ∧
        es₂.map (fun e => e.2.1) = rest := by
  intro l₁
  induction l₁ with
  | nil =>
    intro a rest es s t hch hv
    rw [List.nil_append] at hv
    injection hv with hv1 hv2
    refine ⟨[], es, by simp, hv1, ?_, hv2⟩
    rw [← hv1]
    exact hch
  | cons x l₁ ih =>
    intro a rest es s t hch hv
    rw [List.cons_append] at hv
    injection hv with hv1 hv2
    cases es with
    | nil => simp at hv2
    | cons e es' =>
      obtain ⟨he, he1, hch'⟩ := hch
      rw [List.map_cons] at hv2
      obtain ⟨es₁, es₂, heq, hch1, hch2, hmap⟩ := ih a rest es' e.2.1 t hch' hv2
      exact ⟨e :: es₁, es₂, by rw [heq, List.cons_append], ⟨he, he1, hch1⟩, hch2, hmap⟩

theorem chain_shorten (g : BFGraph) (src : ℕ)
    (hw : ∀ e ∈ g.edges, e.1 < g.V ∧ e.2.1 < g.V) (hs : src < g.V)
    (hcyc : ∀ a es, (∃ es₀, IsChain g.edges src es₀ a) → IsChain g.edges a es a →
      0 ≤ chainCost es) :
    ∀ (n : ℕ) (es : List Edge) (t : ℕ), es.length ≤ n → IsChain g.edges src es t →
      ∃ es', IsChain g.edges src es' t ∧ chainCost es' ≤ chainCost es ∧
        es'.length ≤ g.V - 1 := by
  intro n
  induction n with
  | zero =>
    intro es t hlen hch
    have hnil : es = [] := List.length_eq_zero.1 (by omega)
    subst hnil
    exact ⟨[], hch, le_refl _, by simp⟩
  | succ n ih =>
    intro es t hlen hch
    by_cases hshort : es.length ≤ g.V - 1
    · exact ⟨es, hch, le_refl _, hshort⟩
    · -- the vertex sequence has more than V entries, all below V
      have hbound : ∀ x ∈ src :: es.map (fun e => e.2.1), x < g.V := by
        intro x hx
        rcases List.mem_cons.1 hx with h | h
        · exact h ▸ hs
        · obtain ⟨e, he, rfl⟩ := List.mem_map.1 h
          exact (hw e (isChain_sub g.edges es src t hch e he)).2
      have hlong : g.V < (src :: es.map (fun e => e.2.1)).length := by
        simp only [List.length_cons, List.length_map]
        omega
      obtain ⟨l₁, a, l₂, l₃, hsplit⟩ :=
        exists_dup_split _ (not_nodup_of_bound hbound hlong)
      obtain ⟨es₁, es₂₃, heq1, hch1, hch23, hmap1⟩ :=
        chain_split g.edges l₁ a (l₂ ++ a :: l₃) es src t hch (by rw [hsplit]; simp)
      obtain ⟨es₂, es₃, heq2, hch2, hch3, hmap2⟩ :=
        chain_split g.edges (a :: l₂) a l₃ es₂₃ a t hch23
          (by rw [List.cons_append]; rw [hmap1])
      -- the cut-out cycle has nonnegative cost
      have hcyc2 : 0 ≤ chainCost es₂ := hcyc a es₂ ⟨es₁, hch1⟩ hch2
      -- the shortened chain
      have hch' : IsChain g.edges src (es₁ ++ es₃) t :=
        (isChain_append g.edges es₁ es₃ src t).2 ⟨a, hch1, hch3⟩
      have hlescost : chainCost (es₁ ++ es₃) ≤ chainCost es := by
        rw [heq1, heq2, chainCost_append, chainCost_append, chainCost_append]
        omega
      have hlen2 : 1 ≤ es₂.length := by
        have h1 : es₂₃.map (fun e => e.2.1) = l₂ ++ a :: l₃ := hmap1
        have h2 : (es₂ ++ es₃).map (fun e => e.2.1) = l₂ ++ a :: l₃ := by
          rw [← heq2]; exact h1
        have h3 : es₃.map (fun e => e.2.1) = l₃ := hmap2
        have h4 := congrArg List.length h2
        simp only [List.length_map, List.length_append, List.length_cons] at h4
        have h5 := congrArg List.length h3
        simp only [List.length_map] at h5
        omega
      have hlen' : (es₁ ++ es₃).length ≤ n := by
        have h1 := congrArg List.length heq1
        have h2 := congrArg List.length heq2
        simp only [List.length_append] at h1 h2 ⊢
        omega
      obtain ⟨es'', hch'', hcost'', hlen''⟩ := ih (es₁ ++ es₃) t hlen' hch'
      exact ⟨es'', hch'', le_trans hcost'' hlescost, hlen''⟩

theorem relaxEdge_self_le (d : ℕ → Option ℤ) (e : Edge) :
    oleq ((relaxEdge d e) e.2.1) (oadd (d e.1) e.2.2) := by
  cases hu : d e.1 with
  | none =>
    exact trivial
  | some du =>
    show oleq ((relaxEdge d e) e.2.1) (some (du + e.2.2))
    cases hv : d e.2.1 with
    | none =>
      simp only [relaxEdge, hu, hv, updF_apply, if_pos rfl]
      exact ⟨du + e.2.2, rfl, le_refl _⟩
    | some dv =>
      by_cases hlt : du + e.2.2 < dv
      · simp only [relaxEdge, hu, hv, if_pos hlt, updF_apply, if_pos rfl]
        exact ⟨du + e.2.2, rfl, le_refl _⟩
      · simp only [relaxEdge, hu, hv, if_neg hlt]
        exact ⟨dv, rfl, by omega⟩

theorem foldl_relax_le_edge :
    ∀ (l : List Edge) (d : ℕ → Option ℤ) (e : Edge), e ∈ l →
      oleq ((l.foldl relaxEdge d) e.2.1) (oadd (d e.1) e.2.2) := by
  intro l
  induction l with
  | nil =>
    intro d e he
    simp at he
  | cons e0 es ih =>
    intro d e he
    rcases List.mem_cons.1 he with h1 | h1
    · subst h1
      exact oleq_trans (foldl_relax_le es (relaxEdge d e) e.2.1) (relaxEdge_self_le d e)
    · exact oleq_trans (ih (relaxEdge d e0) e h1) (oadd_mono (relaxEdge_le d e0 e.1))

theorem iterate_le_chain (edges : List Edge) (s : ℕ) :
    ∀ (k : ℕ) (es : List Edge) (t : ℕ), IsChain edges s es t → es.length ≤ k →
      oleq (((relaxPass edges)^[k] (initDist s)) t) (some (chainCost es)) := by
  intro k
  induction k with
  | zero =>
    intro es t hch hlen
    have hnil : es = [] := List.length_eq_zero.1 (by omega)
    subst hnil
    have hst : s = t := hch
    subst hst
    simpa [initDist, chainCost] using iterate_relax_le edges 0 (initDist s) s
  | succ k ih =>
    intro es t hch hlen
    rcases List.eq_nil_or_concat es with rfl | ⟨es', e, rfl⟩
    · have hst : s = t := hch
      subst hst
      simpa [initDist, chainCost] using iterate_relax_le edges (k + 1) (initDist s) s
    · rw [List.concat_eq_append] at hch hlen ⊢
      obtain ⟨m, hch1, hch2⟩ := (isChain_append edges es' [e] s t).1 hch
      obtain ⟨he, he1, he2⟩ := hch2
      have ht : e.2.1 = t := he2
      have hlen' : es'.length ≤ k := by
        rw [List.length_append] at hlen
        simp at hlen
        omega
      have ih1 := ih es' m hch1 hlen'
      rw [Function.iterate_succ_apply']
      subst ht
      have h2 := foldl_relax_le_edge edges ((relaxPass edges)^[k] (initDist s)) e he
      have h3 : oleq (oadd (((relaxPass edges)^[k] (initDist s)) e.1) e.2.2)
          (some (chainCost es' + e.2.2)) := by
        rw [he1]
        exact oadd_mono ih1
      have hcost : chainCost (es' ++ [e]) = chainCost es' + e.2.2 := by
        rw [chainCost_append]
        simp [chainCost]
      rw [hcost]
      exact oleq_trans h2 h3

theorem foldl_relax_congr :
    ∀ (l : List Edge) (d : ℕ → Option ℤ),
      (∀ e ∈ l, relaxEdge d e = d) → l.foldl relaxEdge d = d := by
  intro l
  induction l with
  | nil => intro d _; rfl
  | cons e es ih =>
    intro d h
    simp only [List.foldl_cons]
    rw [h e (List.mem_cons_self _ _)]
    exact ih d (fun x hx => h x (List.mem_cons_of_mem _ hx))

/-- C6: with no negative-weight cycle reachable from the source (every
cycle at a vertex reachable from `src` has nonnegative total weight), the
table produced by the `V - 1` passes is a fixed point of relaxation: one
more full pass over all edges changes no distance value. -/
theorem bellmanFord_fixed_point (g : BFGraph) (src : ℕ)
    (hw : ∀ e ∈ g.edges, e.1 < g.V ∧ e.2.1 < g.V) (hs : src < g.V)
    (hcyc : ∀ a es, (∃ es₀, IsChain g.edges src es₀ a) → IsChain g.edges a es a →
      0 ≤ chainCost es) :
    relaxPass g.edges (bfTable g src) = bfTable g src := by
  apply foldl_relax_congr
  intro e he
  cases hu : bfTable g src e.1 with
  | none => simp only [relaxEdge, hu]
  | some x =>
    obtain ⟨es, hch, hcost⟩ := chain_of_walkTo (bfTable_sound g src e.1 x hu)
    have hch2 : IsChain g.edges src (es ++ [e]) e.2.1 :=
      (isChain_append g.edges es [e] src e.2.1).2 ⟨e.1, hch, he, rfl, rfl⟩
    obtain ⟨es', hch', hcost', hlen'⟩ := chain_shorten g src hw hs hcyc
      (es ++ [e]).length (es ++ [e]) e.2.1 (le_refl _) hch2
    have hA := iterate_le_chain g.edges src (g.V - 1) es' e.2.1 hch' hlen'
    rw [← bfTable_eq_iterate] at hA
    obtain ⟨y, hy, hyc⟩ := hA
    have hno : ¬ (x + e.2.2 < y) := by
      have hc2 : chainCost (es ++ [e]) = x + e.2.2 := by
        rw [chainCost_append, hcost]
        simp [chainCost]
      rw [hc2] at hcost'
      omega
    simp only [relaxEdge, hu, hy, if_neg hno]

/-- Nonnegative edge weights rule out negative cycles outright. -/
theorem chainCost_nonneg_of_weights {edges : List Edge}
    (hpos : ∀ e ∈ edges, 0 ≤ e.2.2) :
    ∀ (es : List Edge) (a b : ℕ), IsChain edges a es b → 0 ≤ chainCost es := by
  intro es
  induction es with
  | nil =>
    intro a b _
    simp [chainCost]
  | cons e es' ih =>
    intro a b hch
    obtain ⟨he, _, hch'⟩ := hch
    have h1 := hpos e he
    have h2 := ih e.2.1 b hch'
    simp only [chainCost, List.map_cons, List.sum_cons] at h2 ⊢
    omega

/-- Closed instantiation of `bellmanFord_fixed_point` on the example graph,
whose weights are all nonnegative. -/
theorem bellmanFord_fixed_point_witness :
    relaxPass [(0, 1, 4), (0, 2, 1), (2, 1, 2), (1, 3, 1), (2, 3, 5)]
        (bfTable ⟨4, [(0, 1, 4), (0, 2, 1), (2, 1, 2), (1, 3, 1), (2, 3, 5)]⟩ 0) =
      bfTable ⟨4, [(0, 1, 4), (0, 2, 1), (2, 1, 2), (1, 3, 1), (2, 3, 5)]⟩ 0 :=
  bellmanFord_fixed_point ⟨4, [(0, 1, 4), (0, 2, 1), (2, 1, 2), (1, 3, 1), (2, 3, 5)]⟩ 0
    (by decide) (by decide)
    (fun a es _ hch => chainCost_nonneg_of_weights (by decide) es a a hch)

end SP
